import Mathlib

/-!
Verification of the AST-optimization passes of the
`compiler-optimizations-notebook` repository (`src/presentation.ipynb`):
constant folding, strength reduction, dead-branch elimination and
call-graph-based dead-function elimination, embedded shallowly over the
Python `ast` node shapes the notebook manipulates.
-/

namespace CompilerOpt

/-- Runtime literal values carried by `Constant` nodes: integers, floats
(modelled as rationals), booleans and strings, as in the Python source. -/
inductive Value where
  | int (n : ℤ)
  | float (q : ℚ)
  | bool (b : Bool)
  | str (s : String)
deriving DecidableEq

/-- Python truthiness of a value (used by `if` tests and `and`/`or`). -/
def Value.truthy : Value → Bool
  | .int n => n ≠ 0
  | .float q => q ≠ 0
  | .bool b => b
  | .str s => s ≠ ""

/-- Numeric view: Python treats `bool` as an integer in arithmetic; both
ints and floats embed into one numeric line (floats as rationals). -/
def Value.toNum : Value → Option ℚ
  | .int n => some (n : ℚ)
  | .float q => some q
  | .bool b => some (if b then 1 else 0)
  | .str _ => none

/-- Integer view: `int` and `bool` values, which Python's arithmetic keeps
exact (an operation on two of these yields an `int`). -/
def Value.toIntVal : Value → Option ℤ
  | .int n => some n
  | .bool b => some (if b then 1 else 0)
  | _ => none

/-- Python `==` on literal values: cross-type numeric equality
(`2 == 2.0 == True + True - 0` …), string equality, `False` otherwise.
This is the equality Python's structural patterns like `Constant(2)` use. -/
def pyEq (a b : Value) : Bool :=
  match a.toNum, b.toNum with
  | some x, some y => x == y
  | _, _ =>
    match a, b with
    | .str s, .str t => s == t
    | _, _ => false

/-- Python `+` on literal values: numeric addition (int when both operands
are int/bool, float when either is a float), string concatenation, and a
`TypeError` on any other combination. -/
def pyAdd (a b : Value) : Except String Value :=
  match a.toIntVal, b.toIntVal with
  | some x, some y => .ok (.int (x + y))
  | _, _ =>
    match a.toNum, b.toNum with
    | some x, some y => .ok (.float (x + y))
    | _, _ =>
      match a, b with
      | .str s, .str t => .ok (.str (s ++ t))
      | _, _ => .error "TypeError"

/-- Python `-` on literal values: numeric only. -/
def pySub (a b : Value) : Except String Value :=
  match a.toIntVal, b.toIntVal with
  | some x, some y => .ok (.int (x - y))
  | _, _ =>
    match a.toNum, b.toNum with
    | some x, some y => .ok (.float (x - y))
    | _, _ => .error "TypeError"

/-- String repetition, `s * n` in Python (non-positive `n` gives `""`). -/
def strRepeat (s : String) (n : ℤ) : String :=
  String.join (List.replicate n.toNat s)

/-- Python `*` on literal values: numeric multiplication, or string
repetition when one side is a string and the other an int/bool. -/
def pyMult (a b : Value) : Except String Value :=
  match a.toIntVal, b.toIntVal with
  | some x, some y => .ok (.int (x * y))
  | _, _ =>
    match a.toNum, b.toNum with
    | some x, some y => .ok (.float (x * y))
    | _, _ =>
      match a, b with
      | .str s, t =>
        match t.toIntVal with
        | some n => .ok (.str (strRepeat s n))
        | none => .error "TypeError"
      | t, .str s =>
        match t.toIntVal with
        | some n => .ok (.str (strRepeat s n))
        | none => .error "TypeError"
      | _, _ => .error "TypeError"

/-- Python `/` (true division): always produces a float; division by a
numeric zero raises `ZeroDivisionError`; non-numeric operands raise
`TypeError`. -/
def pyDiv (a b : Value) : Except String Value :=
  match a.toNum, b.toNum with
  | some x, some y =>
    if y = 0 then .error "ZeroDivisionError" else .ok (.float (x / y))
  | _, _ => .error "TypeError"

/-- Python `and` on values: the left operand if it is falsy, else the
right operand. Never fails. -/
def pyAnd (a b : Value) : Value :=
  if a.truthy then b else a

/-- Python `or` on values: the left operand if it is truthy, else the
right operand. Never fails. -/
def pyOr (a b : Value) : Value :=
  if a.truthy then a else b

/-- Binary-operator tags, matching the `ast` operator classes the source
pattern-matches on. -/
inductive Op where
  | Add | Sub | Mult | Div | Mod | BitAnd | And | Or
deriving DecidableEq

/-- Unary-operator tags (`USub` is the one the source produces). -/
inductive UOp where
  | USub
deriving DecidableEq

/-- Comparison-operator tags (appear in `Compare` nodes such as
`x % 2 == 0`; the passes only traverse through them). -/
inductive CmpOp where
  | Eq | Gt | Lt
deriving DecidableEq

mutual
/-- Expression nodes of the AST, following the `ast` module's shapes used
in the notebook: `Constant`, `Name`, `BinOp`, `UnaryOp`, `Compare`,
`Call` (whose callee is itself an expression, `Name` for direct calls). -/
inductive Expr where
  | Constant (value : Value)
  | Name (id : String)
  | BinOp (left : Expr) (op : Op) (right : Expr)
  | UnaryOp (op : UOp) (operand : Expr)
  | Compare (left : Expr) (ops : List CmpOp) (comparators : List Expr)
  | Call (func : Expr) (args : List Expr)

/-- Statement nodes: `FunctionDef`, `Assign` (single name target),
`If`, `Return`, and `ExprStmt` (the `ast.Expr` statement wrapping an
expression, e.g. a top-level call). -/
inductive Stmt where
  | FunctionDef (name : String) (body : List Stmt)
  | Assign (target : String) (value : Expr)
  | If (test : Expr) (body : List Stmt) (orelse : List Stmt)
  | Return (value : Expr)
  | ExprStmt (value : Expr)
end

/-- A module: an ordered sequence of top-level statements. -/
structure Module where
  body : List Stmt

/-! ### Constant folding (`ConstantFolder.visit_BinOp`)

The source's `match (node.left, node.op, node.right)` on an already
child-folded `BinOp`.  Python evaluation of `left <op> right` can raise
(`ZeroDivisionError`, `TypeError`), so folding runs in `Except`. -/

/-- The match arms of `ConstantFolder.visit_BinOp`, applied to a `BinOp`
whose children have already been visited: six constant/constant arms
(Add, Sub, Mult, Div, And, Or) and a default arm returning the node
unchanged. -/
def foldBinOp (left : Expr) (op : Op) (right : Expr) : Except String Expr :=
  match left, op, right with
  | .Constant l, .Add, .Constant r => (pyAdd l r).map .Constant
  | .Constant l, .Sub, .Constant r => (pySub l r).map .Constant
  | .Constant l, .Mult, .Constant r => (pyMult l r).map .Constant
  | .Constant l, .Div, .Constant r => (pyDiv l r).map .Constant
  | .Constant l, .And, .Constant r => .ok (.Constant (pyAnd l r))
  | .Constant l, .Or, .Constant r => .ok (.Constant (pyOr l r))
  | l, op, r => .ok (.BinOp l op r)

mutual
/-- Pass `ConstantFolder` on an expression: the `NodeTransformer` visits
children first (`generic_visit`), then applies `visit_BinOp`'s match on
`BinOp` nodes; every other node type passes through with visited
children. -/
def foldExpr : Expr → Except String Expr
  | .Constant v => .ok (.Constant v)
  | .Name id => .ok (.Name id)
  | .BinOp l op r => do foldBinOp (← foldExpr l) op (← foldExpr r)
  | .UnaryOp op e => do .ok (.UnaryOp op (← foldExpr e))
  | .Compare l ops rs => do .ok (.Compare (← foldExpr l) ops (← foldExprList rs))
  | .Call f args => do .ok (.Call (← foldExpr f) (← foldExprList args))

/-- Pass `ConstantFolder` over a list of child expressions. -/
def foldExprList : List Expr → Except String (List Expr)
  | [] => .ok []
  | e :: es => do .ok ((← foldExpr e) :: (← foldExprList es))
end

mutual
/-- Pass `ConstantFolder` on a statement: generic traversal into every child
expression and statement list. -/
def foldStmt : Stmt → Except String Stmt
  | .FunctionDef name body => do .ok (.FunctionDef name (← foldStmtList body))
  | .Assign t v => do .ok (.Assign t (← foldExpr v))
  | .If t b o => do .ok (.If (← foldExpr t) (← foldStmtList b) (← foldStmtList o))
  | .Return v => do .ok (.Return (← foldExpr v))
  | .ExprStmt v => do .ok (.ExprStmt (← foldExpr v))

/-- Pass `ConstantFolder` over a statement list. -/
def foldStmtList : List Stmt → Except String (List Stmt)
  | [] => .ok []
  | s :: ss => do .ok ((← foldStmt s) :: (← foldStmtList ss))
end

/-- Running `ConstantFolder().visit` on a whole module. -/
def foldModule (m : Module) : Except String Module := do
  .ok ⟨← foldStmtList m.body⟩

/-! ### Strength reduction (`StrengthReducer.visit_BinOp`) -/

/-- Does an expression match the Python pattern `Constant(v)` for a fixed
literal `v`?  Python class patterns compare with `==`, so `Constant(2)`
also matches `Constant(2.0)`. -/
def isConstEq (e : Expr) (v : Value) : Bool :=
  match e with
  | .Constant c => pyEq c v
  | _ => false

/-- The match arms of `StrengthReducer.visit_BinOp`, in the source's
priority order: `x % Constant(2) → x & Constant(1)`;
`Constant(0) + e → e` and `e + Constant(0) → e`;
`Constant(1) * e → e` and `e * Constant(1) → e`;
`Constant(0) - e → UnaryOp(USub, e)`; anything else unchanged.
The operator decides which rule can fire, so at most one arm applies. -/
def reduceBinOp (left : Expr) (op : Op) (right : Expr) : Expr :=
  match op with
  | .Mod =>
    if isConstEq right (.int 2) then .BinOp left .BitAnd (.Constant (.int 1))
    else .BinOp left .Mod right
  | .Add =>
    if isConstEq left (.int 0) then right
    else if isConstEq right (.int 0) then left
    else .BinOp left .Add right
  | .Mult =>
    if isConstEq left (.int 1) then right
    else if isConstEq right (.int 1) then left
    else .BinOp left .Mult right
  | .Sub =>
    if isConstEq left (.int 0) then .UnaryOp .USub right
    else .BinOp left .Sub right
  | op => .BinOp left op right

mutual
/-- Pass `StrengthReducer` on an expression: children first, then the
`visit_BinOp` match on `BinOp` nodes; all other nodes pass through. -/
def reduceExpr : Expr → Expr
  | .Constant v => .Constant v
  | .Name id => .Name id
  | .BinOp l op r => reduceBinOp (reduceExpr l) op (reduceExpr r)
  | .UnaryOp op e => .UnaryOp op (reduceExpr e)
  | .Compare l ops rs => .Compare (reduceExpr l) ops (reduceExprList rs)
  | .Call f args => .Call (reduceExpr f) (reduceExprList args)

/-- Pass `StrengthReducer` over a list of child expressions. -/
def reduceExprList : List Expr → List Expr
  | [] => []
  | e :: es => reduceExpr e :: reduceExprList es
end

mutual
/-- Pass `StrengthReducer` on a statement (generic traversal). -/
def reduceStmt : Stmt → Stmt
  | .FunctionDef name body => .FunctionDef name (reduceStmtList body)
  | .Assign t v => .Assign t (reduceExpr v)
  | .If t b o => .If (reduceExpr t) (reduceStmtList b) (reduceStmtList o)
  | .Return v => .Return (reduceExpr v)
  | .ExprStmt v => .ExprStmt (reduceExpr v)

/-- Pass `StrengthReducer` over a statement list. -/
def reduceStmtList : List Stmt → List Stmt
  | [] => []
  | s :: ss => reduceStmt s :: reduceStmtList ss
end

/-- Running `StrengthReducer().visit` on a whole module. -/
def reduceModule (m : Module) : Module :=
  ⟨reduceStmtList m.body⟩

/-! ### Dead-branch elimination (`DeadBranchEliminator.visit_If`)

`visit_If` first visits children, then, when the (unchanged) test is a
constant, returns `node.body` or `node.orelse` — a **list**, which the
`NodeTransformer` splices into the enclosing statement sequence in place
of the single `If`.  Hence statement rewriting here returns a list. -/

mutual
/-- Pass `DeadBranchEliminator` on one statement, returning the list of
statements that replaces it in the enclosing sequence: an `If` with a
constant test becomes its (already-rewritten) taken branch; any other
statement stays a single statement with rewritten children. -/
def elimBranchStmt : Stmt → List Stmt
  | .If test body orelse =>
    let body' := elimBranchStmtList body
    let orelse' := elimBranchStmtList orelse
    match test with
    | .Constant c => if c.truthy then body' else orelse'
    | t => [.If t body' orelse']
  | .FunctionDef name body => [.FunctionDef name (elimBranchStmtList body)]
  | s => [s]

/-- Pass `DeadBranchEliminator` over a statement sequence: each element's
replacement list is spliced in. -/
def elimBranchStmtList : List Stmt → List Stmt
  | [] => []
  | s :: ss => elimBranchStmt s ++ elimBranchStmtList ss
end

/-- Running `DeadBranchEliminator().visit` on a whole module. -/
def elimBranchModule (m : Module) : Module :=
  ⟨elimBranchStmtList m.body⟩

/-! ### Call-graph construction (`DeadFunctionIdentifier`)

The identifier walks the tree keeping a current-function cursor
(initially the synthetic `"start"` node), adds a graph node per
`FunctionDef`, and an edge `current → target` for every `Call` whose
callee is a plain `Name`.  `networkx.add_edge` also records both
endpoints as nodes. -/

/-- The call graph: accumulated node and edge lists (only membership
matters downstream, mirroring networkx's set semantics). -/
structure Graph where
  nodes : List String
  edges : List (String × String)

/-- Method `graph.add_node(n)`. -/
def Graph.add_node (g : Graph) (n : String) : Graph :=
  ⟨g.nodes ++ [n], g.edges⟩

/-- Method `graph.add_edge(a, b)`: records the edge and both endpoints. -/
def Graph.add_edge (g : Graph) (a b : String) : Graph :=
  ⟨g.nodes ++ [a, b], g.edges ++ [(a, b)]⟩

mutual
/-- Visitor `DeadFunctionIdentifier` on an expression: on `Call(Name target, …)`
add the edge `cur → target`, then traverse into callee and arguments
(`generic_visit`); other expressions just traverse. -/
def graphExpr (cur : String) (g : Graph) : Expr → Graph
  | .Constant _ => g
  | .Name _ => g
  | .BinOp l _ r => graphExpr cur (graphExpr cur g l) r
  | .UnaryOp _ e => graphExpr cur g e
  | .Compare l _ rs => graphExprList cur (graphExpr cur g l) rs
  | .Call f args =>
    let g :=
      match f with
      | .Name target => g.add_edge cur target
      | _ => g
    graphExprList cur (graphExpr cur g f) args

/-- Visitor `DeadFunctionIdentifier` over a list of child expressions. -/
def graphExprList (cur : String) (g : Graph) : List Expr → Graph
  | [] => g
  | e :: es => graphExprList cur (graphExpr cur g e) es
end

mutual
/-- Visitor `DeadFunctionIdentifier` on a statement: `visit_FunctionDef` adds a
node for the function's name and traverses its body with the cursor set
to that name (restoring it afterwards); other statements traverse with
the cursor unchanged. -/
def graphStmt (cur : String) (g : Graph) : Stmt → Graph
  | .FunctionDef name body => graphStmtList name (g.add_node name) body
  | .Assign _ v => graphExpr cur g v
  | .If t b o => graphStmtList cur (graphStmtList cur (graphExpr cur g t) b) o
  | .Return v => graphExpr cur g v
  | .ExprStmt v => graphExpr cur g v

/-- Visitor `DeadFunctionIdentifier` over a statement list. -/
def graphStmtList (cur : String) (g : Graph) : List Stmt → Graph
  | [] => g
  | s :: ss => graphStmtList cur (graphStmt cur g s) ss
end

/-- Build the call graph of a module: a fresh graph holding the
synthetic `"start"` node, then one traversal from the top level. -/
def buildGraph (m : Module) : Graph :=
  graphStmtList "start" ⟨["start"], []⟩ m.body

/-! ### Reachability (`nx.descendants(graph, "start") | {"start"}`)

Worklist closure over the edge list, mirroring graph reachability from
the synthetic entry node. -/

/-- Add the elements of `xs` that are not yet in `acc`. -/
def addNew (acc : List String) : List String → List String
  | [] => acc
  | x :: xs => addNew (if x ∈ acc then acc else x :: acc) xs

/-- Direct successors of `a` in the edge list. -/
def succs (edges : List (String × String)) (a : String) : List String :=
  (edges.filter (fun e => e.1 == a)).map Prod.snd

/-- One closure step: add every successor of every node found so far. -/
def expand (edges : List (String × String)) (acc : List String) : List String :=
  addNew acc (acc.flatMap (succs edges))

/-- Iterate the closure step `n` times. -/
def expandIter (edges : List (String × String)) : ℕ → List String → List String
  | 0, acc => acc
  | n + 1, acc => expandIter edges n (expand edges acc)

/-- All nodes reachable from `"start"` (inclusive): enough closure steps
to hit the fixed point (the accumulator grows only with edge targets, so
`edges.length + 1` steps suffice). -/
def reachSet (edges : List (String × String)) : List String :=
  expandIter edges (edges.length + 1) ["start"]

/-- Method `DeadFunctionIdentifier.get_unreachable`: build the graph, compute
the reachable set, and return the graph nodes outside it. -/
def get_unreachable (m : Module) : List String :=
  let g := buildGraph m
  let reachable := reachSet g.edges
  g.nodes.filter (fun n => n ∉ reachable)

/-! ### Function elimination (`FunctionEliminator`)

A `NodeTransformer` holding the set `fns`: `visit_FunctionDef` returns
`None` (deletion from the enclosing sequence) when the name is in `fns`,
else keeps the node and recurses; all other statements recurse
generically. -/

mutual
/-- Pass `FunctionEliminator` on one statement: `none` means the statement is
deleted from its enclosing sequence. -/
def elimFnStmt (fns : List String) : Stmt → Option Stmt
  | .FunctionDef name body =>
    if name ∈ fns then none
    else some (.FunctionDef name (elimFnStmtList fns body))
  | .If t b o => some (.If t (elimFnStmtList fns b) (elimFnStmtList fns o))
  | s => some s

/-- Pass `FunctionEliminator` over a statement sequence: deleted statements
are dropped. -/
def elimFnStmtList (fns : List String) : List Stmt → List Stmt
  | [] => []
  | s :: ss =>
    match elimFnStmt fns s with
    | none => elimFnStmtList fns ss
    | some s' => s' :: elimFnStmtList fns ss
end

/-- Method `DeadFunctionEliminator.visit`: identify the unreachable graph nodes,
then delete every `FunctionDef` whose name is among them. -/
def deadFnElim (m : Module) : Module :=
  ⟨elimFnStmtList (get_unreachable m) m.body⟩

/-! ### Spec-side notions used to state the claims -/

/-- The one-step edge relation of an edge list. -/
def EdgeRel (edges : List (String × String)) (a b : String) : Prop :=
  (a, b) ∈ edges

/-- Spec-level reachability: the reflexive-transitive closure of the
edge relation, i.e. "reachable from `a` by following directed edges". -/
def ReachSpec (edges : List (String × String)) (a b : String) : Prop :=
  Relation.ReflTransGen (EdgeRel edges) a b

mutual
/-- Names defined by a `FunctionDef` in one statement, nested definitions
included. -/
def definedNamesStmt : Stmt → List String
  | .FunctionDef name body => name :: definedNames body
  | .If _ b o => definedNames b ++ definedNames o
  | _ => []

/-- All names defined by a `FunctionDef` in a statement list, nested
definitions included. -/
def definedNames : List Stmt → List String
  | [] => []
  | s :: ss => definedNamesStmt s ++ definedNames ss
end

/-- Does the statement list contain a `FunctionDef` of this name, at any
nesting depth? -/
def hasFnDef (name : String) (ss : List Stmt) : Prop :=
  name ∈ definedNames ss

/-- Every node the worklist ever holds is `"start"` or the target of
some edge. -/
def Bounded (edges : List (String × String)) (acc : List String) : Prop :=
  ∀ x ∈ acc, x = "start" ∨ ∃ e ∈ edges, e.2 = x

/-- Drop every edge pointing at `u`. -/
def pruneEdges (u : String) (edges : List (String × String)) :
    List (String × String) :=
  edges.filter (fun e => e.2 ≠ u)

/-- The spec's `apply(op, l, r)`: native evaluation of the six folded
operators on literal values. -/
def applyOp : Op → Value → Value → Except String Value
  | .Add, a, b => pyAdd a b
  | .Sub, a, b => pySub a b
  | .Mult, a, b => pyMult a b
  | .Div, a, b => pyDiv a b
  | .And, a, b => .ok (pyAnd a b)
  | .Or, a, b => .ok (pyOr a b)
  | _, _, _ => .error "unsupported operator"

/-- Modelled from the spec: the target language's (Python's) runtime
evaluation of integer binary operators, which the repository itself never
implements (it only rewrites trees); the spec's property §8 appeals to
"evaluating `x % 2`" and "evaluating the rewritten `x & 1`".  `%` is
`Int.emod` (Python's sign-of-divisor convention agrees with it for the
positive divisors used here) and `&` is two's-complement bitwise and. -/
def evalIntBinOp : Op → ℤ → ℤ → Except String ℤ
  | .Mod, x, y => if y = 0 then .error "ZeroDivisionError" else .ok (x % y)
  | .BitAnd, x, y => .ok (Int.land x y)
  | .Add, x, y => .ok (x + y)
  | .Sub, x, y => .ok (x - y)
  | .Mult, x, y => .ok (x * y)
  | _, _, _ => .error "unsupported operator"

/-- The module of end-to-end scenario 4: `h` calls nothing, `f`, `g` and
`main` each call `h`, and the top level calls only `main`. -/
def scenario4 : Module :=
  ⟨[ .FunctionDef "h" [.Return (.Constant (.int 0))],
     .FunctionDef "f" [.ExprStmt (.Call (.Name "h") [])],
     .FunctionDef "g" [.ExprStmt (.Call (.Name "h") [])],
     .FunctionDef "main" [.ExprStmt (.Call (.Name "h") [])],
     .ExprStmt (.Call (.Name "main") []) ]⟩

/-- The mutual-recursion scenario: `f` is called from the top level while
`g` and `h` only call each other. -/
def scenMutual : Module :=
  ⟨[ .FunctionDef "f" [.Return (.Constant (.int 0))],
     .FunctionDef "g" [.ExprStmt (.Call (.Name "h") [])],
     .FunctionDef "h" [.ExprStmt (.Call (.Name "g") [])],
     .ExprStmt (.Call (.Name "f") []) ]⟩

/-- A module calling the undefined name `ghost`. -/
def scenUndef : Module :=
  ⟨[ .FunctionDef "f" [.ExprStmt (.Call (.Name "ghost") [])],
     .ExprStmt (.Call (.Name "f") []) ]⟩

/-! ### Correctness of the reachability computation

`reachSet` is shown to compute exactly the reflexive-transitive closure
of the edge relation from `"start"`: the worklist grows monotonically,
stays inside `"start" :: edge targets`, and therefore reaches a fixed
point within `edges.length + 1` rounds. -/

theorem mem_addNew (xs : List String) (acc : List String) (x : String) :
    x ∈ addNew acc xs ↔ x ∈ acc ∨ x ∈ xs := by
  induction xs generalizing acc with
  | nil => simp [addNew]
  | cons y ys ih =>
    rw [addNew, ih]
    by_cases hy : y ∈ acc
    · simp only [hy, if_true, List.mem_cons]
      constructor
      · rintro (h | h)
        · exact Or.inl h
        · exact Or.inr (Or.inr h)
      · rintro (h | rfl | h)
        · exact Or.inl h
        · exact Or.inl hy
        · exact Or.inr h
    · simp only [hy, if_false, List.mem_cons]
      tauto

theorem nodup_addNew (xs : List String) (acc : List String) (h : acc.Nodup) :
    (addNew acc xs).Nodup := by
  induction xs generalizing acc with
  | nil => exact h
  | cons y ys ih =>
    rw [addNew]
    by_cases hy : y ∈ acc
    · simpa [hy] using ih acc h
    · simpa [hy] using ih (y :: acc) (List.nodup_cons.mpr ⟨hy, h⟩)

theorem length_addNew (xs : List String) (acc : List String) :
    acc.length ≤ (addNew acc xs).length := by
  induction xs generalizing acc with
  | nil => exact le_rfl
  | cons y ys ih =>
    rw [addNew]
    by_cases hy : y ∈ acc
    · simpa [hy] using ih acc
    · simp only [hy, if_false]
      exact le_trans (by simp) (ih (y :: acc))

theorem addNew_eq_or_lt (xs : List String) (acc : List String) :
    addNew acc xs = acc ∨ acc.length < (addNew acc xs).length := by
  induction xs generalizing acc with
  | nil => exact Or.inl rfl
  | cons y ys ih =>
    rw [addNew]
    by_cases hy : y ∈ acc
    · simpa [hy] using ih acc
    · simp only [hy, if_false]
      refine Or.inr (lt_of_lt_of_le ?_ (length_addNew ys (y :: acc)))
      simp

theorem mem_succs (edges : List (String × String)) (a x : String) :
    x ∈ succs edges a ↔ (a, x) ∈ edges := by
  simp only [succs, List.mem_map, List.mem_filter]
  constructor
  · rintro ⟨⟨u, v⟩, ⟨hmem, heq⟩, rfl⟩
    simp only [beq_iff_eq] at heq
    simpa [heq] using hmem
  · intro h
    exact ⟨(a, x), ⟨h, by simp⟩, rfl⟩

theorem mem_expand (edges : List (String × String)) (acc : List String) (x : String) :
    x ∈ expand edges acc ↔ x ∈ acc ∨ ∃ a ∈ acc, (a, x) ∈ edges := by
  simp only [expand, mem_addNew, List.mem_flatMap, mem_succs]

theorem subset_expand (edges : List (String × String)) (acc : List String) :
    acc ⊆ expand edges acc := by
  intro x hx
  exact (mem_expand edges acc x).mpr (Or.inl hx)

theorem expandIter_stable (edges : List (String × String)) (n : ℕ)
    (acc : List String) (h : expand edges acc = acc) :
    expandIter edges n acc = acc := by
  induction n with
  | zero => rfl
  | succ n ih => rw [expandIter, h, ih]

theorem subset_expandIter (edges : List (String × String)) (n : ℕ)
    (acc : List String) : acc ⊆ expandIter edges n acc := by
  induction n generalizing acc with
  | zero => exact fun x hx => hx
  | succ n ih =>
    rw [expandIter]
    exact fun x hx => ih (expand edges acc) (subset_expand edges acc hx)

theorem bounded_expand (edges : List (String × String)) (acc : List String)
    (h : Bounded edges acc) : Bounded edges (expand edges acc) := by
  intro x hx
  rcases (mem_expand edges acc x).mp hx with hx' | ⟨a, _, he⟩
  · exact h x hx'
  · exact Or.inr ⟨(a, x), he, rfl⟩

theorem length_le_of_nodup_bounded (edges : List (String × String))
    (acc : List String) (h1 : acc.Nodup) (h2 : Bounded edges acc) :
    acc.length ≤ edges.length + 1 := by
  have hsub : acc.toFinset ⊆ ("start" :: edges.map Prod.snd).toFinset := by
    intro x hx
    rw [List.mem_toFinset] at hx ⊢
    rcases h2 x hx with rfl | ⟨e, he, rfl⟩
    · exact List.mem_cons_self _ _
    · exact List.mem_cons_of_mem _ (List.mem_map_of_mem Prod.snd he)
  have h3 : acc.toFinset.card = acc.length := List.toFinset_card_of_nodup h1
  have h4 : ("start" :: edges.map Prod.snd).toFinset.card ≤
      ("start" :: edges.map Prod.snd).length := List.toFinset_card_le _
  have h5 := Finset.card_le_card hsub
  simp only [List.length_cons, List.length_map] at h4
  omega

theorem nodup_expand (edges : List (String × String)) (acc : List String)
    (h : acc.Nodup) : (expand edges acc).Nodup :=
  nodup_addNew _ _ h

theorem expand_expandIter_fix (edges : List (String × String)) :
    ∀ (n : ℕ) (acc : List String), acc.Nodup → Bounded edges acc →
      edges.length + 1 ≤ n + acc.length →
      expand edges (expandIter edges n acc) = expandIter edges n acc := by
  intro n
  induction n with
  | zero =>
    intro acc h1 h2 h3
    rw [expandIter]
    rcases addNew_eq_or_lt (acc.flatMap (succs edges)) acc with heq | hlt
    · exact heq
    · exfalso
      have hb := length_le_of_nodup_bounded edges (expand edges acc)
        (nodup_expand edges acc h1) (bounded_expand edges acc h2)
      simp only [expand] at hlt hb
      omega
  | succ n ih =>
    intro acc h1 h2 h3
    by_cases hfix : expand edges acc = acc
    · rw [expandIter, hfix, expandIter_stable edges n acc hfix, hfix]
    · rw [expandIter]
      have hlt : acc.length < (expand edges acc).length := by
        rcases addNew_eq_or_lt (acc.flatMap (succs edges)) acc with heq | hlt
        · exact absurd heq hfix
        · exact hlt
      exact ih (expand edges acc) (nodup_expand edges acc h1)
        (bounded_expand edges acc h2) (by omega)

theorem expand_reachSet_fix (edges : List (String × String)) :
    expand edges (reachSet edges) = reachSet edges := by
  apply expand_expandIter_fix edges (edges.length + 1) ["start"]
  · simp
  · intro x hx
    simp only [List.mem_singleton] at hx
    exact Or.inl hx
  · simp

theorem start_mem_reachSet (edges : List (String × String)) :
    "start" ∈ reachSet edges :=
  subset_expandIter edges _ ["start"] (by simp)

theorem reachSpec_of_mem_reachSet (edges : List (String × String)) (b : String)
    (h : b ∈ reachSet edges) : ReachSpec edges "start" b := by
  rw [reachSet] at h
  have main : ∀ (n : ℕ) (acc : List String),
      (∀ x ∈ acc, ReachSpec edges "start" x) →
      ∀ x ∈ expandIter edges n acc, ReachSpec edges "start" x := by
    intro n
    induction n with
    | zero => intro acc hacc x hx; exact hacc x hx
    | succ n ih =>
      intro acc hacc x hx
      rw [expandIter] at hx
      refine ih (expand edges acc) ?_ x hx
      intro y hy
      rcases (mem_expand edges acc y).mp hy with hy' | ⟨a, ha, he⟩
      · exact hacc y hy'
      · exact Relation.ReflTransGen.tail (hacc a ha) he
  refine main _ ["start"] ?_ b h
  intro x hx
  simp only [List.mem_singleton] at hx
  exact hx ▸ Relation.ReflTransGen.refl

theorem mem_reachSet_of_reachSpec (edges : List (String × String)) (b : String)
    (h : ReachSpec edges "start" b) : b ∈ reachSet edges := by
  induction h with
  | refl => exact start_mem_reachSet edges
  | tail _ he ih =>
    have hm := (mem_expand edges (reachSet edges) _).mpr (Or.inr ⟨_, ih, he⟩)
    rwa [expand_reachSet_fix edges] at hm

/-- The computed reachable set is exactly spec-level reachability from
the synthetic entry node. -/
theorem mem_reachSet_iff (edges : List (String × String)) (b : String) :
    b ∈ reachSet edges ↔ ReachSpec edges "start" b :=
  ⟨reachSpec_of_mem_reachSet edges b, mem_reachSet_of_reachSpec edges b⟩

/-! ### Structure of the built call graph -/

theorem nodes_add_node (g : Graph) (n : String) :
    g.nodes ⊆ (g.add_node n).nodes :=
  List.subset_append_left _ _

theorem nodes_add_edge (g : Graph) (a b : String) :
    g.nodes ⊆ (g.add_edge a b).nodes :=
  List.subset_append_left _ _

mutual
theorem graph_nodes_mono_expr : ∀ (e : Expr) (cur : String) (g : Graph),
    g.nodes ⊆ (graphExpr cur g e).nodes
  | .Constant _, _, _ => fun _ h => h
  | .Name _, _, _ => fun _ h => h
  | .BinOp l _ r, cur, g =>
    (graph_nodes_mono_expr l cur g).trans (graph_nodes_mono_expr r cur _)
  | .UnaryOp _ e, cur, g => graph_nodes_mono_expr e cur g
  | .Compare l _ rs, cur, g =>
    (graph_nodes_mono_expr l cur g).trans (graph_nodes_mono_exprList rs cur _)
  | .Call f args, cur, g => by
    cases f with
    | Name target =>
      exact (nodes_add_edge g cur target).trans
        (graph_nodes_mono_exprList args cur _)
    | Constant v =>
      exact (graph_nodes_mono_expr (.Constant v) cur g).trans
        (graph_nodes_mono_exprList args cur _)
    | BinOp l op r =>
      exact (graph_nodes_mono_expr (.BinOp l op r) cur g).trans
        (graph_nodes_mono_exprList args cur _)
    | UnaryOp op e =>
      exact (graph_nodes_mono_expr (.UnaryOp op e) cur g).trans
        (graph_nodes_mono_exprList args cur _)
    | Compare l ops rs =>
      exact (graph_nodes_mono_expr (.Compare l ops rs) cur g).trans
        (graph_nodes_mono_exprList args cur _)
    | Call f' args' =>
      exact (graph_nodes_mono_expr (.Call f' args') cur g).trans
        (graph_nodes_mono_exprList args cur _)

theorem graph_nodes_mono_exprList : ∀ (es : List Expr) (cur : String) (g : Graph),
    g.nodes ⊆ (graphExprList cur g es).nodes
  | [], _, _ => fun _ h => h
  | e :: es, cur, g =>
    (graph_nodes_mono_expr e cur g).trans (graph_nodes_mono_exprList es cur _)
end

mutual
theorem graph_nodes_mono_stmt : ∀ (s : Stmt) (cur : String) (g : Graph),
    g.nodes ⊆ (graphStmt cur g s).nodes
  | .FunctionDef name body, _, g =>
    (nodes_add_node g name).trans (graph_nodes_mono_stmtList body name _)
  | .Assign _ v, cur, g => graph_nodes_mono_expr v cur g
  | .If t b o, cur, g =>
    ((graph_nodes_mono_expr t cur g).trans
      (graph_nodes_mono_stmtList b cur _)).trans
      (graph_nodes_mono_stmtList o cur _)
  | .Return v, cur, g => graph_nodes_mono_expr v cur g
  | .ExprStmt v, cur, g => graph_nodes_mono_expr v cur g

theorem graph_nodes_mono_stmtList : ∀ (ss : List Stmt) (cur : String) (g : Graph),
    g.nodes ⊆ (graphStmtList cur g ss).nodes
  | [], _, _ => fun _ h => h
  | s :: ss, cur, g =>
    (graph_nodes_mono_stmt s cur g).trans (graph_nodes_mono_stmtList ss cur _)
end

mutual
theorem defined_mem_graph_stmt : ∀ (s : Stmt) (cur : String) (g : Graph)
    (x : String), x ∈ definedNamesStmt s → x ∈ (graphStmt cur g s).nodes
  | .FunctionDef name body, _, g, x, hx => by
    rw [definedNamesStmt, List.mem_cons] at hx
    rcases hx with rfl | hx
    · exact graph_nodes_mono_stmtList body x _ (by simp [Graph.add_node])
    · exact defined_mem_graph_stmtList body x name (g.add_node name) hx
  | .Assign _ _, _, _, x, hx => by simp [definedNamesStmt] at hx
  | .If t b o, cur, g, x, hx => by
    rw [definedNamesStmt, List.mem_append] at hx
    rcases hx with hx | hx
    · exact graph_nodes_mono_stmtList o cur _
        (defined_mem_graph_stmtList b x cur _ hx)
    · exact defined_mem_graph_stmtList o x cur _ hx
  | .Return _, _, _, x, hx => by simp [definedNamesStmt] at hx
  | .ExprStmt _, _, _, x, hx => by simp [definedNamesStmt] at hx

theorem defined_mem_graph_stmtList : ∀ (ss : List Stmt) (x : String)
    (cur : String) (g : Graph), x ∈ definedNames ss →
    x ∈ (graphStmtList cur g ss).nodes
  | s :: ss, x, cur, g, hx => by
    rw [definedNames, List.mem_append] at hx
    rcases hx with hx | hx
    · exact graph_nodes_mono_stmtList ss cur _
        (defined_mem_graph_stmt s cur g x hx)
    · exact defined_mem_graph_stmtList ss x cur _ hx
end

/-- Every `FunctionDef` name of a module is a node of its call graph. -/
theorem defined_mem_buildGraph (m : Module) (x : String)
    (hx : x ∈ definedNames m.body) : x ∈ (buildGraph m).nodes :=
  defined_mem_graph_stmtList m.body x "start" _ hx

mutual
theorem graph_edges_src_expr : ∀ (e : Expr) (cur : String) (g : Graph)
    (p : String × String), p ∈ (graphExpr cur g e).edges →
    p ∈ g.edges ∨ p.1 = cur
  | .Constant _, _, _, _, h => Or.inl h
  | .Name _, _, _, _, h => Or.inl h
  | .BinOp l _ r, cur, g, p, h => by
    rcases graph_edges_src_expr r cur _ p h with h' | h'
    · exact graph_edges_src_expr l cur g p h'
    · exact Or.inr h'
  | .UnaryOp _ e, cur, g, p, h => graph_edges_src_expr e cur g p h
  | .Compare l _ rs, cur, g, p, h => by
    rcases graph_edges_src_exprList rs cur _ p h with h' | h'
    · exact graph_edges_src_expr l cur g p h'
    · exact Or.inr h'
  | .Call f args, cur, g, p, h => by
    cases f with
    | Name target =>
      rcases graph_edges_src_exprList args cur _ p h with h' | h'
      · rcases List.mem_append.mp h' with h'' | h''
        · exact Or.inl h''
        · rw [List.mem_singleton] at h''
          exact Or.inr (by rw [h''])
      · exact Or.inr h'
    | Constant v =>
      rcases graph_edges_src_exprList args cur _ p h with h' | h'
      · exact graph_edges_src_expr (.Constant v) cur g p h'
      · exact Or.inr h'
    | BinOp l op r =>
      rcases graph_edges_src_exprList args cur _ p h with h' | h'
      · exact graph_edges_src_expr (.BinOp l op r) cur g p h'
      · exact Or.inr h'
    | UnaryOp op e =>
      rcases graph_edges_src_exprList args cur _ p h with h' | h'
      · exact graph_edges_src_expr (.UnaryOp op e) cur g p h'
      · exact Or.inr h'
    | Compare l ops rs =>
      rcases graph_edges_src_exprList args cur _ p h with h' | h'
      · exact graph_edges_src_expr (.Compare l ops rs) cur g p h'
      · exact Or.inr h'
    | Call f' args' =>
      rcases graph_edges_src_exprList args cur _ p h with h' | h'
      · exact graph_edges_src_expr (.Call f' args') cur g p h'
      · exact Or.inr h'

theorem graph_edges_src_exprList : ∀ (es : List Expr) (cur : String) (g : Graph)
    (p : String × String), p ∈ (graphExprList cur g es).edges →
    p ∈ g.edges ∨ p.1 = cur
  | [], _, _, _, h => Or.inl h
  | e :: es, cur, g, p, h => by
    rcases graph_edges_src_exprList es cur _ p h with h' | h'
    · exact graph_edges_src_expr e cur g p h'
    · exact Or.inr h'
end

mutual
theorem graph_edges_src_stmt : ∀ (s : Stmt) (cur : String) (g : Graph)
    (p : String × String), p ∈ (graphStmt cur g s).edges →
    p ∈ g.edges ∨ p.1 = cur ∨ p.1 ∈ definedNamesStmt s
  | .FunctionDef name body, cur, g, p, h => by
    rcases graph_edges_src_stmtList body name (g.add_node name) p h with h' | h' | h'
    · exact Or.inl h'
    · exact Or.inr (Or.inr (by rw [definedNamesStmt, List.mem_cons]; exact Or.inl h'))
    · exact Or.inr (Or.inr (by rw [definedNamesStmt, List.mem_cons]; exact Or.inr h'))
  | .Assign _ v, cur, g, p, h => by
    rcases graph_edges_src_expr v cur g p h with h' | h'
    · exact Or.inl h'
    · exact Or.inr (Or.inl h')
  | .If t b o, cur, g, p, h => by
    rcases graph_edges_src_stmtList o cur _ p h with h' | h' | h'
    · rcases graph_edges_src_stmtList b cur _ p h' with h'' | h'' | h''
      · rcases graph_edges_src_expr t cur g p h'' with h3 | h3
        · exact Or.inl h3
        · exact Or.inr (Or.inl h3)
      · exact Or.inr (Or.inl h'')
      · exact Or.inr (Or.inr (by
          rw [definedNamesStmt, List.mem_append]; exact Or.inl h''))
    · exact Or.inr (Or.inl h')
    · exact Or.inr (Or.inr (by
        rw [definedNamesStmt, List.mem_append]; exact Or.inr h'))
  | .Return v, cur, g, p, h => by
    rcases graph_edges_src_expr v cur g p h with h' | h'
    · exact Or.inl h'
    · exact Or.inr (Or.inl h')
  | .ExprStmt v, cur, g, p, h => by
    rcases graph_edges_src_expr v cur g p h with h' | h'
    · exact Or.inl h'
    · exact Or.inr (Or.inl h')

theorem graph_edges_src_stmtList : ∀ (ss : List Stmt) (cur : String) (g : Graph)
    (p : String × String), p ∈ (graphStmtList cur g ss).edges →
    p ∈ g.edges ∨ p.1 = cur ∨ p.1 ∈ definedNames ss
  | [], _, _, _, h => Or.inl h
  | s :: ss, cur, g, p, h => by
    rcases graph_edges_src_stmtList ss cur _ p h with h' | h' | h'
    · rcases graph_edges_src_stmt s cur g p h' with h'' | h'' | h''
      · exact Or.inl h''
      · exact Or.inr (Or.inl h'')
      · exact Or.inr (Or.inr (by
          rw [definedNames, List.mem_append]; exact Or.inl h''))
    · exact Or.inr (Or.inl h')
    · exact Or.inr (Or.inr (by
        rw [definedNames, List.mem_append]; exact Or.inr h'))
end

/-- Every edge of the built call graph leaves `"start"` or a defined
function: an undefined callee never has outgoing edges. -/
theorem buildGraph_edges_src (m : Module) (p : String × String)
    (h : p ∈ (buildGraph m).edges) :
    p.1 = "start" ∨ p.1 ∈ definedNames m.body := by
  rcases graph_edges_src_stmtList m.body "start" ⟨["start"], []⟩ p h with h' | h' | h'
  · simp at h'
  · exact Or.inl h'
  · exact Or.inr h'

/-! ### Reachability facts used by the dead-function claims -/

theorem mem_get_unreachable (m : Module) (n : String) :
    n ∈ get_unreachable m ↔
      n ∈ (buildGraph m).nodes ∧ ¬ ReachSpec (buildGraph m).edges "start" n := by
  simp only [get_unreachable, List.mem_filter, decide_eq_true_eq,
    mem_reachSet_iff]

/-- Nothing reachable from `"start"` lies in a set that avoids `"start"`
and is closed under taking edge sources. -/
theorem reachSpec_avoids (edges : List (String × String)) (S : String → Prop)
    (hstart : ¬ S "start") (hclosed : ∀ p ∈ edges, S p.2 → S p.1) :
    ∀ b, ReachSpec edges "start" b → ¬ S b := by
  intro b h
  induction h with
  | refl => exact hstart
  | tail _ he ih => exact fun hSb => ih (hclosed _ he hSb)

/-- If `u` has no outgoing edges, removing the edges into `u` does not
change which other nodes are reachable from the entry. -/
theorem reachSpec_prune_iff (edges : List (String × String)) (u : String)
    (hout : ∀ p ∈ edges, p.1 ≠ u) (b : String) (hb : b ≠ u) :
    ReachSpec edges "start" b ↔ ReachSpec (pruneEdges u edges) "start" b := by
  constructor
  · intro h
    have main : ∀ c, ReachSpec edges "start" c →
        c = u ∨ ReachSpec (pruneEdges u edges) "start" c := by
      intro c hc
      induction hc with
      | refl => exact Or.inr Relation.ReflTransGen.refl
      | @tail y c h1 he ih =>
        by_cases hcu : c = u
        · exact Or.inl hcu
        · rcases ih with rfl | hr
          · exact absurd rfl (hout _ he)
          · refine Or.inr (Relation.ReflTransGen.tail hr ?_)
            exact List.mem_filter.mpr ⟨he, by simpa using hcu⟩
    rcases main b h with rfl | hr
    · exact absurd rfl hb
    · exact hr
  · exact Relation.ReflTransGen.mono fun a c hac => List.mem_of_mem_filter hac

/-! ### Behaviour of the function eliminator -/

theorem elimFnStmt_none_iff (fns : List String) (s : Stmt) :
    elimFnStmt fns s = none ↔
      ∃ n b, s = .FunctionDef n b ∧ n ∈ fns := by
  cases s with
  | FunctionDef name body =>
    by_cases h : name ∈ fns <;> simp [elimFnStmt, h]
  | Assign t v => simp [elimFnStmt]
  | If t b o => simp [elimFnStmt]
  | Return v => simp [elimFnStmt]
  | ExprStmt v => simp [elimFnStmt]

/-- A kept top-level `FunctionDef` survives elimination (with its body
recursively processed). -/
theorem fnDef_retained (fns : List String) :
    ∀ (ss : List Stmt) (name : String) (body : List Stmt),
      Stmt.FunctionDef name body ∈ ss → name ∉ fns →
      ∃ b, Stmt.FunctionDef name b ∈ elimFnStmtList fns ss
  | s :: ss, name, body, hmem, hnot => by
    rw [List.mem_cons] at hmem
    rcases hmem with rfl | hmem
    · refine ⟨elimFnStmtList fns body, ?_⟩
      simp only [elimFnStmtList, elimFnStmt, hnot, if_false]
      exact List.mem_cons_self _ _
    · rcases fnDef_retained fns ss name body hmem hnot with ⟨b, hb⟩
      refine ⟨b, ?_⟩
      rw [elimFnStmtList]
      cases elimFnStmt fns s with
      | none => exact hb
      | some s' => exact List.mem_cons_of_mem _ hb

mutual
/-- A statement kept by the eliminator defines no name of the deleted
set, at any nesting depth. -/
theorem elim_no_dead_stmt : ∀ (fns : List String) (s s' : Stmt),
    elimFnStmt fns s = some s' → ∀ x, x ∈ definedNamesStmt s' → x ∉ fns
  | fns, .FunctionDef name body, s', h, x, hx => by
    rw [elimFnStmt] at h
    by_cases hn : name ∈ fns
    · simp [hn] at h
    · simp only [hn, if_false, Option.some.injEq] at h
      subst h
      rw [definedNamesStmt, List.mem_cons] at hx
      rcases hx with rfl | hx
      · exact hn
      · exact elim_no_dead_list fns body x hx
  | fns, .Assign t v, s', h, x, hx => by
    have h2 : Stmt.Assign t v = s' := Option.some.inj h
    subst h2
    simp [definedNamesStmt] at hx
  | fns, .If t b o, s', h, x, hx => by
    have h2 : Stmt.If t (elimFnStmtList fns b) (elimFnStmtList fns o) = s' :=
      Option.some.inj h
    subst h2
    rw [definedNamesStmt, List.mem_append] at hx
    rcases hx with hx | hx
    · exact elim_no_dead_list fns b x hx
    · exact elim_no_dead_list fns o x hx
  | fns, .Return v, s', h, x, hx => by
    have h2 : Stmt.Return v = s' := Option.some.inj h
    subst h2
    simp [definedNamesStmt] at hx
  | fns, .ExprStmt v, s', h, x, hx => by
    have h2 : Stmt.ExprStmt v = s' := Option.some.inj h
    subst h2
    simp [definedNamesStmt] at hx

/-- The output of the eliminator defines no name of the deleted set. -/
theorem elim_no_dead_list : ∀ (fns : List String) (ss : List Stmt) (x : String),
    x ∈ definedNames (elimFnStmtList fns ss) → x ∉ fns
  | fns, [], x, hx => by simp [elimFnStmtList, definedNames] at hx
  | fns, s :: ss, x, hx => by
    rw [elimFnStmtList] at hx
    cases h : elimFnStmt fns s with
    | none =>
      rw [h] at hx
      exact elim_no_dead_list fns ss x hx
    | some s' =>
      rw [h] at hx
      rw [definedNames, List.mem_append] at hx
      rcases hx with hx | hx
      · exact elim_no_dead_stmt fns s s' h x hx
      · exact elim_no_dead_list fns ss x hx
end

/-! ### Constant folding: shape and idempotence lemmas -/

theorem exceptBind_ok {α β : Type} {a : Except String α}
    {f : α → Except String β} {b : β} (h : (a >>= f) = .ok b) :
    ∃ a', a = .ok a' ∧ f a' = .ok b := by
  cases a with
  | ok x => exact ⟨x, rfl, h⟩
  | error s => exact Except.noConfusion h

theorem foldBinOp_constants (l : Value) (op : Op) (r : Value)
    (hop : op = .Add ∨ op = .Sub ∨ op = .Mult ∨ op = .Div ∨
      op = .And ∨ op = .Or) :
    foldBinOp (.Constant l) op (.Constant r) = (applyOp op l r).map .Constant := by
  rcases hop with rfl | rfl | rfl | rfl | rfl | rfl <;> rfl

/-- A successful run of the `visit_BinOp` match yields either a folded
constant or the untouched node. -/
theorem foldBinOp_shape (l : Expr) (op : Op) (r : Expr) (e : Expr)
    (h : foldBinOp l op r = .ok e) :
    (∃ c, e = .Constant c) ∨ e = .BinOp l op r := by
  have hmap : ∀ (res : Except String Value),
      res.map Expr.Constant = .ok e → ∃ c, e = .Constant c := by
    intro res hres
    cases res with
    | ok v => exact ⟨v, (Except.ok.inj hres).symm⟩
    | error s => exact Except.noConfusion hres
  cases l with
  | Constant lv =>
    cases r with
    | Constant rv =>
      cases op with
      | Add => exact Or.inl (hmap _ h)
      | Sub => exact Or.inl (hmap _ h)
      | Mult => exact Or.inl (hmap _ h)
      | Div => exact Or.inl (hmap _ h)
      | And => exact Or.inl ⟨_, (Except.ok.inj h).symm⟩
      | Or => exact Or.inl ⟨_, (Except.ok.inj h).symm⟩
      | Mod => exact Or.inr (Except.ok.inj h).symm
      | BitAnd => exact Or.inr (Except.ok.inj h).symm
    | Name id => cases op <;> exact Or.inr (Except.ok.inj h).symm
    | BinOp a o b => cases op <;> exact Or.inr (Except.ok.inj h).symm
    | UnaryOp o a => cases op <;> exact Or.inr (Except.ok.inj h).symm
    | Compare a o b => cases op <;> exact Or.inr (Except.ok.inj h).symm
    | Call f args => cases op <;> exact Or.inr (Except.ok.inj h).symm
  | Name id => exact Or.inr (Except.ok.inj h).symm
  | BinOp a o b => exact Or.inr (Except.ok.inj h).symm
  | UnaryOp o a => exact Or.inr (Except.ok.inj h).symm
  | Compare a o b => exact Or.inr (Except.ok.inj h).symm
  | Call f args => exact Or.inr (Except.ok.inj h).symm

mutual
/-- The output of one successful constant-folding traversal is a fixed
point of a further traversal. -/
theorem foldExpr_fix : ∀ (e e' : Expr), foldExpr e = .ok e' →
    foldExpr e' = .ok e'
  | .Constant v, e', h => by
    have h2 : Expr.Constant v = e' := Except.ok.inj h
    subst h2; rfl
  | .Name id, e', h => by
    have h2 : Expr.Name id = e' := Except.ok.inj h
    subst h2; rfl
  | .BinOp l op r, e', h => by
    replace h : (foldExpr l >>= fun x =>
        foldExpr r >>= fun y => foldBinOp x op y) = .ok e' := h
    obtain ⟨l', hl, h⟩ := exceptBind_ok h
    obtain ⟨r', hr, h⟩ := exceptBind_ok h
    have hl2 := foldExpr_fix l l' hl
    have hr2 := foldExpr_fix r r' hr
    rcases foldBinOp_shape l' op r' e' h with ⟨c, rfl⟩ | rfl
    · rfl
    · show (foldExpr l' >>= fun x =>
        foldExpr r' >>= fun y => foldBinOp x op y) = .ok (.BinOp l' op r')
      rw [hl2, hr2]
      exact h
  | .UnaryOp op e, e', h => by
    replace h : (foldExpr e >>= fun x =>
        Except.ok (Expr.UnaryOp op x)) = .ok e' := h
    obtain ⟨e1, he, h⟩ := exceptBind_ok h
    have h2 : Expr.UnaryOp op e1 = e' := Except.ok.inj h
    subst h2
    show (foldExpr e1 >>= fun x => Except.ok (Expr.UnaryOp op x)) =
      .ok (.UnaryOp op e1)
    rw [foldExpr_fix e e1 he]
    rfl
  | .Compare l ops rs, e', h => by
    replace h : (foldExpr l >>= fun x =>
        foldExprList rs >>= fun ys => Except.ok (Expr.Compare x ops ys)) =
        .ok e' := h
    obtain ⟨l', hl, h⟩ := exceptBind_ok h
    obtain ⟨rs', hrs, h⟩ := exceptBind_ok h
    have h2 : Expr.Compare l' ops rs' = e' := Except.ok.inj h
    subst h2
    show (foldExpr l' >>= fun x =>
        foldExprList rs' >>= fun ys => Except.ok (Expr.Compare x ops ys)) = _
    rw [foldExpr_fix l l' hl, foldExprList_fix rs rs' hrs]
    rfl
  | .Call f args, e', h => by
    replace h : (foldExpr f >>= fun x =>
        foldExprList args >>= fun ys => Except.ok (Expr.Call x ys)) =
        .ok e' := h
    obtain ⟨f', hf, h⟩ := exceptBind_ok h
    obtain ⟨args', hargs, h⟩ := exceptBind_ok h
    have h2 : Expr.Call f' args' = e' := Except.ok.inj h
    subst h2
    show (foldExpr f' >>= fun x =>
        foldExprList args' >>= fun ys => Except.ok (Expr.Call x ys)) = _
    rw [foldExpr_fix f f' hf, foldExprList_fix args args' hargs]
    rfl

/-- List version of `foldExpr_fix`. -/
theorem foldExprList_fix : ∀ (es es' : List Expr),
    foldExprList es = .ok es' → foldExprList es' = .ok es'
  | [], es', h => by
    have h2 : List.nil = es' := Except.ok.inj h
    subst h2; rfl
  | e :: es, es', h => by
    replace h : (foldExpr e >>= fun x =>
        foldExprList es >>= fun ys => Except.ok (x :: ys)) = .ok es' := h
    obtain ⟨e1, he, h⟩ := exceptBind_ok h
    obtain ⟨es1, hes, h⟩ := exceptBind_ok h
    have h2 : e1 :: es1 = es' := Except.ok.inj h
    subst h2
    show (foldExpr e1 >>= fun x =>
        foldExprList es1 >>= fun ys => Except.ok (x :: ys)) = _
    rw [foldExpr_fix e e1 he, foldExprList_fix es es1 hes]
    rfl
end

mutual
/-- Statement version of `foldExpr_fix`. -/
theorem foldStmt_fix : ∀ (s s' : Stmt), foldStmt s = .ok s' →
    foldStmt s' = .ok s'
  | .FunctionDef name body, s', h => by
    replace h : (foldStmtList body >>= fun ss =>
        Except.ok (Stmt.FunctionDef name ss)) = .ok s' := h
    obtain ⟨ss1, hss, h⟩ := exceptBind_ok h
    have h2 : Stmt.FunctionDef name ss1 = s' := Except.ok.inj h
    subst h2
    show (foldStmtList ss1 >>= fun ss =>
        Except.ok (Stmt.FunctionDef name ss)) = _
    rw [foldStmtList_fix body ss1 hss]
    rfl
  | .Assign t v, s', h => by
    replace h : (foldExpr v >>= fun x =>
        Except.ok (Stmt.Assign t x)) = .ok s' := h
    obtain ⟨v1, hv, h⟩ := exceptBind_ok h
    have h2 : Stmt.Assign t v1 = s' := Except.ok.inj h
    subst h2
    show (foldExpr v1 >>= fun x => Except.ok (Stmt.Assign t x)) = _
    rw [foldExpr_fix v v1 hv]
    rfl
  | .If t b o, s', h => by
    replace h : (foldExpr t >>= fun x => foldStmtList b >>= fun bs =>
        foldStmtList o >>= fun os => Except.ok (Stmt.If x bs os)) = .ok s' := h
    obtain ⟨t1, ht, h⟩ := exceptBind_ok h
    obtain ⟨b1, hb, h⟩ := exceptBind_ok h
    obtain ⟨o1, ho, h⟩ := exceptBind_ok h
    have h2 : Stmt.If t1 b1 o1 = s' := Except.ok.inj h
    subst h2
    show (foldExpr t1 >>= fun x => foldStmtList b1 >>= fun bs =>
        foldStmtList o1 >>= fun os => Except.ok (Stmt.If x bs os)) = _
    rw [foldExpr_fix t t1 ht, foldStmtList_fix b b1 hb,
      foldStmtList_fix o o1 ho]
    rfl
  | .Return v, s', h => by
    replace h : (foldExpr v >>= fun x =>
        Except.ok (Stmt.Return x)) = .ok s' := h
    obtain ⟨v1, hv, h⟩ := exceptBind_ok h
    have h2 : Stmt.Return v1 = s' := Except.ok.inj h
    subst h2
    show (foldExpr v1 >>= fun x => Except.ok (Stmt.Return x)) = _
    rw [foldExpr_fix v v1 hv]
    rfl
  | .ExprStmt v, s', h => by
    replace h : (foldExpr v >>= fun x =>
        Except.ok (Stmt.ExprStmt x)) = .ok s' := h
    obtain ⟨v1, hv, h⟩ := exceptBind_ok h
    have h2 : Stmt.ExprStmt v1 = s' := Except.ok.inj h
    subst h2
    show (foldExpr v1 >>= fun x => Except.ok (Stmt.ExprStmt x)) = _
    rw [foldExpr_fix v v1 hv]
    rfl

/-- Statement-list version of `foldExpr_fix`. -/
theorem foldStmtList_fix : ∀ (ss ss' : List Stmt),
    foldStmtList ss = .ok ss' → foldStmtList ss' = .ok ss'
  | [], ss', h => by
    have h2 : List.nil = ss' := Except.ok.inj h
    subst h2; rfl
  | s :: ss, ss', h => by
    replace h : (foldStmt s >>= fun x =>
        foldStmtList ss >>= fun ys => Except.ok (x :: ys)) = .ok ss' := h
    obtain ⟨s1, hs, h⟩ := exceptBind_ok h
    obtain ⟨ss1, hss, h⟩ := exceptBind_ok h
    have h2 : s1 :: ss1 = ss' := Except.ok.inj h
    subst h2
    show (foldStmt s1 >>= fun x =>
        foldStmtList ss1 >>= fun ys => Except.ok (x :: ys)) = _
    rw [foldStmt_fix s s1 hs, foldStmtList_fix ss ss1 hss]
    rfl
end

/-! ### Claim theorems -/

/-- C3: the spec promises that no pass fails at runtime on a well-formed
tree and that constant folding of any constant/constant `BinOp` returns a
tree; but the code's `Constant(left / right)` raises `ZeroDivisionError`
on `BinOp(Constant(1), Div, Constant(0))`, so the pass aborts instead of
returning a tree.  The code contradicts the spec's stated "never fail"
policy at this input. -/
theorem constantFolder_div_by_zero_raises :
    foldModule ⟨[.ExprStmt (.BinOp (.Constant (.int 1)) .Div
      (.Constant (.int 0)))]⟩ = .error "ZeroDivisionError" := by
  rfl

/-- C5 counterexample: at `BinOp(Constant(1), Div, Constant(0))` the
constant folder does not replace the node with any `Constant` — it
raises — so the unconditional folding claim fails at this input. -/
theorem foldExpr_div_zero_no_constant_result :
    foldExpr (.BinOp (.Constant (.int 1)) .Div (.Constant (.int 0))) =
      .error "ZeroDivisionError" ∧
    ¬ ∃ v, foldExpr (.BinOp (.Constant (.int 1)) .Div (.Constant (.int 0))) =
      .ok (.Constant v) := by
  refine ⟨rfl, ?_⟩
  rintro ⟨v, hv⟩
  rw [show foldExpr (.BinOp (.Constant (.int 1)) .Div (.Constant (.int 0))) =
    .error "ZeroDivisionError" from rfl] at hv
  exact Except.noConfusion hv

/-- C5 (amended): whenever native evaluation `apply(op, l, r)` succeeds,
one application of constant folding replaces
`BinOp(Constant(l), op, Constant(r))` by `Constant(apply(op, l, r))`;
when native evaluation raises, the error propagates; `Mod`/`BitAnd`
shapes are left unchanged; and one bottom-up traversal folds the nested
`y = 1 + 1 + 3` to `y = 5` and `y = 10 * 10` to `y = 100`. -/
theorem constant_folding_correct_when_apply_succeeds :
    (∀ l op r v, applyOp op l r = .ok v →
      foldExpr (.BinOp (.Constant l) op (.Constant r)) = .ok (.Constant v)) ∧
    (∀ l op r, op = .Mod ∨ op = .BitAnd →
      foldExpr (.BinOp (.Constant l) op (.Constant r)) =
        .ok (.BinOp (.Constant l) op (.Constant r))) ∧
    (∀ l op r e, op = .Add ∨ op = .Sub ∨ op = .Mult ∨ op = .Div →
      applyOp op l r = .error e →
      foldExpr (.BinOp (.Constant l) op (.Constant r)) = .error e) ∧
    (∀ l op r, (∀ c, l ≠ .Constant c) →
      foldBinOp l op r = .ok (.BinOp l op r)) ∧
    (∀ l op r, (∀ c, r ≠ .Constant c) →
      foldBinOp l op r = .ok (.BinOp l op r)) ∧
    foldStmt (.Assign "y" (.BinOp (.BinOp (.Constant (.int 1)) .Add
        (.Constant (.int 1))) .Add (.Constant (.int 3)))) =
      .ok (.Assign "y" (.Constant (.int 5))) ∧
    foldStmt (.Assign "y" (.BinOp (.Constant (.int 10)) .Mult
        (.Constant (.int 10)))) =
      .ok (.Assign "y" (.Constant (.int 100))) := by
  refine ⟨?_, ?_, ?_, ?_, ?_, rfl, rfl⟩
  · intro l op r v h
    cases op with
    | Add =>
      show (pyAdd l r).map Expr.Constant = .ok (.Constant v)
      rw [show pyAdd l r = .ok v from h]; rfl
    | Sub =>
      show (pySub l r).map Expr.Constant = .ok (.Constant v)
      rw [show pySub l r = .ok v from h]; rfl
    | Mult =>
      show (pyMult l r).map Expr.Constant = .ok (.Constant v)
      rw [show pyMult l r = .ok v from h]; rfl
    | Div =>
      show (pyDiv l r).map Expr.Constant = .ok (.Constant v)
      rw [show pyDiv l r = .ok v from h]; rfl
    | And =>
      have h2 : pyAnd l r = v := Except.ok.inj h
      rw [← h2]; rfl
    | Or =>
      have h2 : pyOr l r = v := Except.ok.inj h
      rw [← h2]; rfl
    | Mod => exact Except.noConfusion h
    | BitAnd => exact Except.noConfusion h
  · intro l op r h
    rcases h with rfl | rfl <;> rfl
  · intro l op r e hop h
    rcases hop with rfl | rfl | rfl | rfl
    · show (pyAdd l r).map Expr.Constant = .error e
      rw [show pyAdd l r = .error e from h]; rfl
    · show (pySub l r).map Expr.Constant = .error e
      rw [show pySub l r = .error e from h]; rfl
    · show (pyMult l r).map Expr.Constant = .error e
      rw [show pyMult l r = .error e from h]; rfl
    · show (pyDiv l r).map Expr.Constant = .error e
      rw [show pyDiv l r = .error e from h]; rfl
  · intro l op r hne
    cases l with
    | Constant c => exact absurd rfl (hne c)
    | Name id => cases op <;> rfl
    | BinOp a o b => cases op <;> rfl
    | UnaryOp o a => cases op <;> rfl
    | Compare a o b => cases op <;> rfl
    | Call f args => cases op <;> rfl
  · intro l op r hne
    cases r with
    | Constant c => exact absurd rfl (hne c)
    | Name id => cases l <;> cases op <;> rfl
    | BinOp a o b => cases l <;> cases op <;> rfl
    | UnaryOp o a => cases l <;> cases op <;> rfl
    | Compare a o b => cases l <;> cases op <;> rfl
    | Call f args => cases l <;> cases op <;> rfl

/-- C5 witness: `2 + 3` folds to `5` through the amended statement. -/
theorem constant_folding_correct_when_apply_succeeds_witness :
    applyOp .Add (.int 2) (.int 3) = .ok (.int 5) ∧
    foldExpr (.BinOp (.Constant (.int 2)) .Add (.Constant (.int 3))) =
      .ok (.Constant (.int 5)) :=
  ⟨rfl, constant_folding_correct_when_apply_succeeds.1 (.int 2) .Add
    (.int 3) (.int 5) rfl⟩

/-- C6: the strength reducer's four rules in their fixed priority order —
`x % Constant(2)` (Python value-equality, so `Constant(2.0)` also
matches) becomes `x & Constant(1)`; adding `Constant(0)` on either side
drops to the other operand; multiplying by `Constant(1)` on either side
drops to the other operand; `Constant(0) - e` becomes `UnaryOp(USub, e)`;
every other shape is returned unchanged, so at most one rule fires. -/
theorem strengthReducer_rules_exact :
    (∀ l r, isConstEq r (.int 2) = true →
      reduceBinOp l .Mod r = .BinOp l .BitAnd (.Constant (.int 1))) ∧
    (∀ l r, isConstEq r (.int 2) = false →
      reduceBinOp l .Mod r = .BinOp l .Mod r) ∧
    (∀ l r, isConstEq l (.int 0) = true → reduceBinOp l .Add r = r) ∧
    (∀ l r, isConstEq l (.int 0) = false → isConstEq r (.int 0) = true →
      reduceBinOp l .Add r = l) ∧
    (∀ l r, isConstEq l (.int 0) = false → isConstEq r (.int 0) = false →
      reduceBinOp l .Add r = .BinOp l .Add r) ∧
    (∀ l r, isConstEq l (.int 1) = true → reduceBinOp l .Mult r = r) ∧
    (∀ l r, isConstEq l (.int 1) = false → isConstEq r (.int 1) = true →
      reduceBinOp l .Mult r = l) ∧
    (∀ l r, isConstEq l (.int 1) = false → isConstEq r (.int 1) = false →
      reduceBinOp l .Mult r = .BinOp l .Mult r) ∧
    (∀ l r, isConstEq l (.int 0) = true →
      reduceBinOp l .Sub r = .UnaryOp .USub r) ∧
    (∀ l r, isConstEq l (.int 0) = false →
      reduceBinOp l .Sub r = .BinOp l .Sub r) ∧
    (∀ l r op, op = .Div ∨ op = .BitAnd ∨ op = .And ∨ op = .Or →
      reduceBinOp l op r = .BinOp l op r) := by
  refine ⟨?_, ?_, ?_, ?_, ?_, ?_, ?_, ?_, ?_, ?_, ?_⟩
  · intro l r h; simp [reduceBinOp, h]
  · intro l r h; simp [reduceBinOp, h]
  · intro l r h; simp [reduceBinOp, h]
  · intro l r h1 h2; simp [reduceBinOp, h1, h2]
  · intro l r h1 h2; simp [reduceBinOp, h1, h2]
  · intro l r h; simp [reduceBinOp, h]
  · intro l r h1 h2; simp [reduceBinOp, h1, h2]
  · intro l r h1 h2; simp [reduceBinOp, h1, h2]
  · intro l r h; simp [reduceBinOp, h]
  · intro l r h; simp [reduceBinOp, h]
  · intro l r op h; rcases h with rfl | rfl | rfl | rfl <;> rfl

/-- C6 witness: `x % 2` rewrites to `x & 1`. -/
theorem strengthReducer_rules_exact_witness :
    isConstEq (.Constant (.int 2)) (.int 2) = true ∧
    reduceBinOp (.Name "x") .Mod (.Constant (.int 2)) =
      .BinOp (.Name "x") .BitAnd (.Constant (.int 1)) :=
  ⟨by decide, strengthReducer_rules_exact.1 (.Name "x")
    (.Constant (.int 2)) (by decide)⟩

/-- C7: an `If` whose test is a constant is replaced, in its enclosing
sequence, by the statements of the (already-rewritten) taken branch — a
sequence splice — while an `If` with a non-constant test survives with
rewritten branches; and `if False: y = 100 else: y = 20` rewrites to just
`y = 20`. -/
theorem deadBranch_splices_taken_branch :
    (∀ c body orelse, elimBranchStmt (.If (.Constant c) body orelse) =
      if c.truthy then elimBranchStmtList body
      else elimBranchStmtList orelse) ∧
    (∀ test body orelse, (∀ c, test ≠ .Constant c) →
      elimBranchStmt (.If test body orelse) =
        [.If test (elimBranchStmtList body) (elimBranchStmtList orelse)]) ∧
    elimBranchStmtList [.If (.Constant (.bool false))
        [.Assign "y" (.Constant (.int 100))]
        [.Assign "y" (.Constant (.int 20))]] =
      [.Assign "y" (.Constant (.int 20))] := by
  refine ⟨fun _ _ _ => rfl, ?_, rfl⟩
  intro test body orelse h
  cases test with
  | Constant c => exact absurd rfl (h c)
  | Name id => rfl
  | BinOp l op r => rfl
  | UnaryOp op e => rfl
  | Compare l ops rs => rfl
  | Call f args => rfl

/-- C7 witness: an `If` with the non-constant test `x` is kept. -/
theorem deadBranch_splices_taken_branch_witness :
    elimBranchStmt (.If (.Name "x") [] []) = [.If (.Name "x") [] []] :=
  deadBranch_splices_taken_branch.2.1 (.Name "x") [] []
    (fun _ h => Expr.noConfusion h)

/-- C9: constant folding is idempotent after one application — folding
the successful output of one folding pass returns it unchanged. -/
theorem constant_folding_idempotent (m m' : Module)
    (h : foldModule m = .ok m') : foldModule m' = .ok m' := by
  replace h : (foldStmtList m.body >>= fun ss =>
      Except.ok (Module.mk ss)) = .ok m' := h
  obtain ⟨ss, hss, h2⟩ := exceptBind_ok h
  have h3 : Module.mk ss = m' := Except.ok.inj h2
  subst h3
  show (foldStmtList ss >>= fun ss2 => Except.ok (Module.mk ss2)) = _
  rw [foldStmtList_fix m.body ss hss]
  rfl

/-- C9 witness: refolding the folded `y = 1 + 1` module is a no-op. -/
theorem constant_folding_idempotent_witness :
    foldModule ⟨[.Assign "y" (.Constant (.int 2))]⟩ =
      .ok ⟨[.Assign "y" (.Constant (.int 2))]⟩ :=
  constant_folding_idempotent
    ⟨[.Assign "y" (.BinOp (.Constant (.int 1)) .Add (.Constant (.int 1)))]⟩
    ⟨[.Assign "y" (.Constant (.int 2))]⟩ rfl

/-- C8: for every non-negative integer `x`, evaluating `x % 2` and
evaluating the strength-reduced `x & 1` give identical results, and the
reducer indeed performs exactly that rewrite. -/
theorem mod_two_equals_and_one_on_nonneg (x : ℤ) (hx : 0 ≤ x) :
    evalIntBinOp .Mod x 2 = evalIntBinOp .BitAnd x 1 ∧
    (∀ e, reduceBinOp e .Mod (.Constant (.int 2)) =
      .BinOp e .BitAnd (.Constant (.int 1))) := by
  constructor
  · obtain ⟨n, rfl⟩ := Int.eq_ofNat_of_zero_le hx
    show (if (2 : ℤ) = 0 then Except.error "ZeroDivisionError"
      else Except.ok (Int.ofNat n % 2)) = Except.ok (Int.land (Int.ofNat n) 1)
    rw [if_neg (by norm_num)]
    have h1 : Int.land (Int.ofNat n) 1 = Int.ofNat (n &&& 1) := rfl
    rw [h1, Nat.and_one_is_mod]
    congr 1
  · intro e
    have hc : isConstEq (Expr.Constant (Value.int 2)) (Value.int 2) = true := by
      decide
    simp [reduceBinOp, hc]

/-- C8 witness: instance at `x = 7`. -/
theorem mod_two_equals_and_one_on_nonneg_witness :
    (0 : ℤ) ≤ 7 ∧ evalIntBinOp .Mod 7 2 = evalIntBinOp .BitAnd 7 1 :=
  ⟨by decide, (mod_two_equals_and_one_on_nonneg 7 (by decide)).1⟩

/-- C1: dead-function elimination deletes exactly the `FunctionDef`s
whose names are not reachable from the entry node of the call graph —
a defined name is in the computed unreachable set iff it is not
spec-reachable, the rewrite deletes a `FunctionDef` iff its name is in
that set, leaves other statements (top-level calls in particular)
intact — and on the scenario-4 module it keeps `h`, `main` and the
top-level call while dropping `f` and `g`. -/
theorem deadFnElim_removes_exactly_unreachable :
    (∀ m n, n ∈ definedNames m.body →
      (n ∈ get_unreachable m ↔ ¬ ReachSpec (buildGraph m).edges "start" n)) ∧
    (∀ m, (deadFnElim m).body =
      elimFnStmtList (get_unreachable m) m.body) ∧
    (∀ fns name body, elimFnStmt fns (.FunctionDef name body) =
      if name ∈ fns then none
      else some (.FunctionDef name (elimFnStmtList fns body))) ∧
    (∀ fns s, elimFnStmt fns s = none ↔
      ∃ n b, s = .FunctionDef n b ∧ n ∈ fns) ∧
    (∀ fns v, elimFnStmt fns (.ExprStmt v) = some (.ExprStmt v)) ∧
    (∀ fns t v, elimFnStmt fns (.Assign t v) = some (.Assign t v)) ∧
    (∀ fns v, elimFnStmt fns (.Return v) = some (.Return v)) ∧
    (deadFnElim scenario4).body =
      [.FunctionDef "h" [.Return (.Constant (.int 0))],
       .FunctionDef "main" [.ExprStmt (.Call (.Name "h") [])],
       .ExprStmt (.Call (.Name "main") [])] := by
  refine ⟨?_, fun m => rfl, fun fns name body => rfl,
    fun fns s => elimFnStmt_none_iff fns s, fun fns v => rfl,
    fun fns t v => rfl, fun fns v => rfl, rfl⟩
  intro m n hdef
  rw [mem_get_unreachable]
  constructor
  · rintro ⟨_, hr⟩
    exact hr
  · intro hr
    exact ⟨defined_mem_buildGraph m n hdef, hr⟩

/-- C1 witness: instance of the dead-set characterization at
scenario 4's function `f`. -/
theorem deadFnElim_removes_exactly_unreachable_witness :
    "f" ∈ definedNames scenario4.body ∧
    ("f" ∈ get_unreachable scenario4 ↔
      ¬ ReachSpec (buildGraph scenario4).edges "start" "f") :=
  ⟨by decide,
   deadFnElim_removes_exactly_unreachable.1 scenario4 "f" (by decide)⟩

/-- C2: if `f` is called from the entry, `g` and `h` call each other,
and every call into `g` or `h` comes from `g` or `h` themselves (neither
is called from `f` or the top level or anywhere else), then elimination
classifies `g` and `h` dead and removes their definitions while `f`'s
definition survives: mutual recursion does not confer reachability. -/
theorem mutual_recursion_unreached_eliminated (m : Module) (f g h : String)
    (hf : ("start", f) ∈ (buildGraph m).edges)
    (_hgh : (g, h) ∈ (buildGraph m).edges)
    (_hhg : (h, g) ∈ (buildGraph m).edges)
    (hgdef : g ∈ definedNames m.body) (hhdef : h ∈ definedNames m.body)
    (hgs : g ≠ "start") (hhs : h ≠ "start")
    (hinto_g : ∀ p ∈ (buildGraph m).edges, p.2 = g → p.1 = g ∨ p.1 = h)
    (hinto_h : ∀ p ∈ (buildGraph m).edges, p.2 = h → p.1 = g ∨ p.1 = h) :
    g ∈ get_unreachable m ∧ h ∈ get_unreachable m ∧
    ¬ hasFnDef g (deadFnElim m).body ∧ ¬ hasFnDef h (deadFnElim m).body ∧
    f ∉ get_unreachable m ∧
    (∀ body, Stmt.FunctionDef f body ∈ m.body →
      ∃ b, Stmt.FunctionDef f b ∈ (deadFnElim m).body) := by
  have havoid := reachSpec_avoids (buildGraph m).edges
    (fun x => x = g ∨ x = h)
    (by rintro (hs | hs)
        · exact hgs hs.symm
        · exact hhs hs.symm)
    (by intro p hp hS
        rcases hS with h2 | h2
        · exact hinto_g p hp h2
        · exact hinto_h p hp h2)
  have hgun : ¬ ReachSpec (buildGraph m).edges "start" g :=
    fun hr => havoid g hr (Or.inl rfl)
  have hhun : ¬ ReachSpec (buildGraph m).edges "start" h :=
    fun hr => havoid h hr (Or.inr rfl)
  have hg2 : g ∈ get_unreachable m :=
    (mem_get_unreachable m g).mpr ⟨defined_mem_buildGraph m g hgdef, hgun⟩
  have hh2 : h ∈ get_unreachable m :=
    (mem_get_unreachable m h).mpr ⟨defined_mem_buildGraph m h hhdef, hhun⟩
  have hfreach : ReachSpec (buildGraph m).edges "start" f :=
    Relation.ReflTransGen.tail Relation.ReflTransGen.refl hf
  have hfnotun : f ∉ get_unreachable m :=
    fun hin => ((mem_get_unreachable m f).mp hin).2 hfreach
  refine ⟨hg2, hh2, ?_, ?_, hfnotun, ?_⟩
  · exact fun hdef => elim_no_dead_list _ _ g hdef hg2
  · exact fun hdef => elim_no_dead_list _ _ h hdef hh2
  · intro body hb
    exact fnDef_retained _ m.body f body hb hfnotun

/-- C2 witness: the spec's concrete module (`f` called from the top
level; `g` and `h` mutually recursive and otherwise uncalled). -/
theorem mutual_recursion_unreached_eliminated_witness :
    (("start", "f") ∈ (buildGraph scenMutual).edges ∧
     ("g", "h") ∈ (buildGraph scenMutual).edges ∧
     ("h", "g") ∈ (buildGraph scenMutual).edges) ∧
    ("g" ∈ get_unreachable scenMutual ∧
     "h" ∈ get_unreachable scenMutual ∧
     ¬ hasFnDef "g" (deadFnElim scenMutual).body ∧
     ¬ hasFnDef "h" (deadFnElim scenMutual).body ∧
     "f" ∉ get_unreachable scenMutual ∧
     (∀ body, Stmt.FunctionDef "f" body ∈ scenMutual.body →
       ∃ b, Stmt.FunctionDef "f" b ∈ (deadFnElim scenMutual).body)) :=
  ⟨⟨by decide, by decide, by decide⟩,
   mutual_recursion_unreached_eliminated scenMutual "f" "g" "h"
     (by decide) (by decide) (by decide) (by decide) (by decide)
     (by decide) (by decide) (by decide) (by decide)⟩

/-- C10: only `FunctionDef` statements are ever deleted (statement
expressions holding calls pass through untouched), and a callee name
with no matching `FunctionDef` never changes the fate of any defined
function: reachability of every defined name, and hence its
kept/deleted status, is the same with the edges into the undefined name
removed. -/
theorem undefined_callee_harmless (m : Module) (u : String)
    (hundef : u ∉ definedNames m.body) (hus : u ≠ "start") :
    (∀ fns s, elimFnStmt fns s = none →
      ∃ n b, s = Stmt.FunctionDef n b ∧ n ∈ fns) ∧
    (∀ fns f args, elimFnStmt fns (.ExprStmt (.Call f args)) =
      some (.ExprStmt (.Call f args))) ∧
    (∀ d, d ∈ definedNames m.body →
      (ReachSpec (buildGraph m).edges "start" d ↔
        ReachSpec (pruneEdges u (buildGraph m).edges) "start" d)) ∧
    (∀ d, d ∈ definedNames m.body →
      (d ∈ get_unreachable m ↔
        ¬ ReachSpec (pruneEdges u (buildGraph m).edges) "start" d)) := by
  have hout : ∀ p ∈ (buildGraph m).edges, p.1 ≠ u := by
    intro p hp hpu
    rcases buildGraph_edges_src m p hp with h1 | h1
    · rw [hpu] at h1
      exact hus h1
    · rw [hpu] at h1
      exact hundef h1
  have hiff : ∀ d, d ∈ definedNames m.body →
      (ReachSpec (buildGraph m).edges "start" d ↔
        ReachSpec (pruneEdges u (buildGraph m).edges) "start" d) := by
    intro d hd
    have hdne : d ≠ u := fun e => hundef (e ▸ hd)
    exact reachSpec_prune_iff _ u hout d hdne
  refine ⟨fun fns s hs => (elimFnStmt_none_iff fns s).mp hs,
    fun fns f args => rfl, hiff, ?_⟩
  intro d hd
  rw [mem_get_unreachable]
  constructor
  · rintro ⟨_, hr⟩
    exact fun hp => hr ((hiff d hd).mpr hp)
  · intro hp
    exact ⟨defined_mem_buildGraph m d hd,
      fun hr => hp ((hiff d hd).mp hr)⟩

/-- C10 witness: a module whose function `f` calls the undefined name
`ghost`. -/
theorem undefined_callee_harmless_witness :
    ("ghost" ∉ definedNames scenUndef.body ∧ "ghost" ≠ "start" ∧
      "f" ∈ definedNames scenUndef.body) ∧
    (ReachSpec (buildGraph scenUndef).edges "start" "f" ↔
      ReachSpec (pruneEdges "ghost" (buildGraph scenUndef).edges)
        "start" "f") :=
  ⟨⟨by decide, by decide, by decide⟩,
   (undefined_callee_harmless scenUndef "ghost" (by decide)
     (by decide)).2.2.1 "f" (by decide)⟩

end CompilerOpt
